import Mathlib

/-!
Verification of the forest-fire cellular automaton simulator
(sequential, threaded and distributed variants).

Shallow embedding conventions:
* a cell is an integer code (the repository stores cells as `int8`;
  we use `Int`, with the three valid codes `EMPTY = 0`, `TREE = 1`,
  `BURN = 2`);
* a grid / block is a list of rows, each row a list of cells; `Ny`
  (the second component of `block.shape` in numpy) is passed explicitly
  and tied to the data by well-formedness hypotheses where needed;
* `np.random.random()` draws are modelled by an explicit stream
  `g : Nat → ℚ` together with a cursor that advances exactly when the
  code performs a draw; the fact that numpy draws lie in `[0, 1)` is an
  explicit hypothesis (`0 ≤ g n`) where a proof needs it;
* probabilities `p`, `f` are rationals.
-/

namespace ForestFire

/-- Cell states, stored as small integer codes
(`EMPTY, TREE, BURN = 0, 1, 2` in every variant of the repository). -/
abbrev Cell := Int

/-- A row of cells (one line of the grid). -/
abbrev Row := List Cell

/-- A grid block: list of rows. -/
abbrev Block := List Row

def EMPTY : Cell := 0

def TREE : Cell := 1

def BURN : Cell := 2

/-- Read cell `(i, j)` of a block, with `EMPTY` as the out-of-range
default (in the embedded code every read is in range; the default only
makes the function total). -/
def getCell (b : Block) (i j : Nat) : Cell :=
  (b.getD i []).getD j EMPTY

/-! ## Partition planner (`worker.py`, lines 49–52)

```python
rows_per = Nx // num_procs
i0 = rank * rows_per
i1 = Nx if rank == num_procs - 1 else (rank + 1) * rows_per
```
-/

/-- `rows_per = Nx // num_procs` (integer division). -/
def rows_per (Nx num_procs : Nat) : Nat := Nx / num_procs

/-- `i0 = rank * rows_per`: first global row of the worker's range. -/
def i0 (Nx num_procs rank : Nat) : Nat := rank * rows_per Nx num_procs

/-- `i1 = Nx if rank == num_procs - 1 else (rank + 1) * rows_per`:
one past the last global row of the worker's range. -/
def i1 (Nx num_procs rank : Nat) : Nat :=
  if rank = num_procs - 1 then Nx else (rank + 1) * rows_per Nx num_procs

/-! ## Distributed update rule (`forest_fire_simulacao.py`, `update_block`)

The Python function pads the block with ghost rows (synthetic all-`EMPTY`
rows when a ghost is `None`), then rewrites every cell from the padded
snapshot, drawing one random number per `TREE`-without-burning-neighbor
cell (compared with `f`) and one per non-`TREE`, non-`BURN` cell
(compared with `p`), in row-major order. -/

/-- The 8 Moore-neighborhood offsets `(di, dj)` scanned by the source's
`for di in (-1,0,1): for dj in (-1,0,1)` loops, with `(0,0)` skipped,
in the source's iteration order. -/
def offsets : List (Int × Int) :=
  [(-1, -1), (-1, 0), (-1, 1), (0, -1), (0, 1), (1, -1), (1, 0), (1, 1)]

/-- One neighbor test of the Moore scan: `ni = i + 1 + di`,
`nj = j + dj`; columns outside `[0, Ny)` are skipped (`continue`),
otherwise the test is `padded[ni, nj] == BURN`. -/
def neighborIsBurn (padded : Block) (Ny i j : Nat) (d : Int × Int) : Bool :=
  let ni : Int := (i : Int) + 1 + d.1
  let nj : Int := (j : Int) + d.2
  if nj < 0 ∨ (Ny : Int) ≤ nj then false
  else decide (getCell padded ni.toNat nj.toNat = BURN)

/-- `burning`: whether any of the 8 Moore neighbors of local cell
`(i, j)` (read in the padded block, at padded row `i + 1`) is `BURN`. -/
def mooreBurning (padded : Block) (Ny i j : Nat) : Bool :=
  offsets.any (neighborIsBurn padded Ny i j)

/-- `np.full((1, Ny), EMPTY) if ghost is None else ghost.reshape(1, Ny)`:
an absent ghost row becomes a synthetic all-`EMPTY` row. -/
def padRow (Ny : Nat) (ghost : Option Row) : Row :=
  match ghost with
  | none => List.replicate Ny EMPTY
  | some r => r

/-- `padded = np.vstack([pad_top, block, pad_bottom])`. -/
def mkPadded (Ny : Nat) (block : Block) (top bottom : Option Row) : Block :=
  padRow Ny top :: (block ++ [padRow Ny bottom])

/-- The body of the per-cell loop of `update_block`: given the padded
snapshot and the random cursor `k`, produce the new value of local cell
`(i, j)` and the advanced cursor.  `s = padded[i+1, j]`; `BURN → EMPTY`
(no draw); `TREE` with a burning neighbor `→ BURN` (no draw); `TREE`
otherwise draws once against `f`; any other value draws once against
`p` (the `else` branch of the source covers every non-`TREE`,
non-`BURN` code). -/
def updateCell (padded : Block) (Ny : Nat) (p f : ℚ) (g : Nat → ℚ)
    (i j k : Nat) : Cell × Nat :=
  let s := getCell padded (i + 1) j
  if s = BURN then (EMPTY, k)
  else if s = TREE then
    if mooreBurning padded Ny i j then (BURN, k)
    else if g k < f then (BURN, k + 1)
    else (TREE, k + 1)
  else if g k < p then (TREE, k + 1)
  else (EMPTY, k + 1)

/-- Inner loop of `update_block`: the cells of row `i` from column `j`
on, `m` cells in all, threading the random cursor left to right. -/
def updateRowAux (padded : Block) (Ny : Nat) (p f : ℚ) (g : Nat → ℚ)
    (i : Nat) : Nat → Nat → Nat → Row × Nat
  | _, k, 0 => ([], k)
  | j, k, m + 1 =>
    let ck := updateCell padded Ny p f g i j k
    let rest := updateRowAux padded Ny p f g i (j + 1) ck.2 m
    (ck.1 :: rest.1, rest.2)

/-- Outer loop of `update_block`: rows from `i` on, `m` rows in all,
each of `Ny` cells, threading the random cursor top to bottom. -/
def updateRowsAux (padded : Block) (Ny : Nat) (p f : ℚ) (g : Nat → ℚ) :
    Nat → Nat → Nat → Block × Nat
  | _, k, 0 => ([], k)
  | i, k, m + 1 =>
    let rk := updateRowAux padded Ny p f g i 0 k Ny
    let rest := updateRowsAux padded Ny p f g (i + 1) rk.2 m
    (rk.1 :: rest.1, rest.2)

/-- `update_block(block, top_ghost, bottom_ghost, p, f)`: pad the block
with the (possibly synthetic) ghost rows and rewrite every cell from
that snapshot.  `Ny` stands for `block.shape[1]`; `g, k` are the random
stream and its cursor; the result pairs the new block with the final
cursor. -/
def update_block (block : Block) (top bottom : Option Row) (Ny : Nat)
    (p f : ℚ) (g : Nat → ℚ) (k : Nat) : Block × Nat :=
  updateRowsAux (mkPadded Ny block top bottom) Ny p f g 0 k block.length

/-! ## Sequential update rule (`forest_fire_sequencial.py`, `step`)

The vectorized numpy code computes, from the old grid: `new` = copy of
`grid` with `BURN ↦ EMPTY`; a Moore-neighbor mask `mask` built from the
8 shifted-slice ORs (each slice OR contributes the neighbor at one
offset, when that neighbor is inside the grid — no wraparound); then
`new[catch] = BURN`, `new[ignite] = BURN`, `new[grow] = TREE` in that
order.  The two `np.random.random(size=grid.shape)` arrays are modelled
by two draw functions indexed by position. -/

/-- One contribution to the sequential neighbor mask: offset
`(di, dj)`, neighbor `(i + di, j + dj)`, counted only when inside the
`Nx × Ny` grid (the shifted slices never reach outside the array). -/
def seqNeighborBurn (grid : Block) (Nx Ny i j : Nat) (d : Int × Int) : Bool :=
  let ni : Int := (i : Int) + d.1
  let nj : Int := (j : Int) + d.2
  if ni < 0 ∨ (Nx : Int) ≤ ni ∨ nj < 0 ∨ (Ny : Int) ≤ nj then false
  else decide (getCell grid ni.toNat nj.toNat = BURN)

/-- `mask[i, j]`: some in-grid Moore neighbor of `(i, j)` is `BURN`
(pointwise content of the 8 shifted-slice OR assignments). -/
def seqMask (grid : Block) (Nx Ny i j : Nat) : Bool :=
  offsets.any (seqNeighborBurn grid Nx Ny i j)

/-- Value of cell `(i, j)` after one sequential `step`: the masked
assignments `new[grid == BURN] = EMPTY`, `new[catch] = BURN`,
`new[ignite] = BURN`, `new[grow] = TREE` read pointwise, with the later
assignment winning.  `rf`, `rp` are the ignition and growth draw
arrays. -/
def stepCell (grid : Block) (Nx Ny : Nat) (p f : ℚ)
    (rf rp : Nat → Nat → ℚ) (i j : Nat) : Cell :=
  let s := getCell grid i j
  let base := if s = BURN then EMPTY else s
  let catchFire := s = TREE ∧ seqMask grid Nx Ny i j = true
  let ignite := rf i j < f ∧ s = TREE
  let grow := rp i j < p ∧ s = EMPTY
  if grow then TREE
  else if ignite then BURN
  else if catchFire then BURN
  else base

/-- One sequential `step(grid, p, f)` over the whole `Nx × Ny` grid
(`Nx = grid.length`; `Ny` stands for `grid.shape[1]`). -/
def step (grid : Block) (Ny : Nat) (p f : ℚ) (rf rp : Nat → Nat → ℚ) :
    Block :=
  (List.range' 0 grid.length).map fun i =>
    (List.range' 0 Ny).map fun j => stepCell grid grid.length Ny p f rf rp i j

/-! ## Planner lemmas -/

lemma rows_per_pos {Nx np : Nat} (hpos : 0 < np) (hle : np ≤ Nx) :
    0 < rows_per Nx np :=
  Nat.div_pos hle hpos

lemma i1_of_ne {Nx np r : Nat} (h : r ≠ np - 1) :
    i1 Nx np r = (r + 1) * rows_per Nx np := if_neg h

lemma i1_last (Nx np : Nat) : i1 Nx np (np - 1) = Nx := if_pos rfl

lemma i0_le_Nx {Nx np r : Nat} (hr : r ≤ np) : i0 Nx np r ≤ Nx :=
  calc r * rows_per Nx np ≤ np * rows_per Nx np :=
        Nat.mul_le_mul_right _ hr
    _ = Nx / np * np := Nat.mul_comm _ _
    _ ≤ Nx := Nat.div_mul_le_self Nx np

/-- C2: for `Nx ≥ num_workers > 0` the planner's per-rank ranges
`[i0, i1)` start at `0`, end at `Nx`, are contiguous (each non-last
range of size exactly `Nx / num_workers` abuts the next), ordered and
pairwise disjoint by rank, and cover `[0, Nx)` exactly; the last rank's
range ends at `Nx`, absorbing the whole remainder. -/
theorem planner_partition (Nx np : Nat) (hpos : 0 < np) (hle : np ≤ Nx) :
    i0 Nx np 0 = 0 ∧
    i1 Nx np (np - 1) = Nx ∧
    (∀ r, r < np → i0 Nx np r ≤ i1 Nx np r) ∧
    (∀ r, r + 1 < np → i1 Nx np r = i0 Nx np (r + 1)) ∧
    (∀ r, r + 1 < np → i1 Nx np r - i0 Nx np r = Nx / np) ∧
    (∀ r s, r < s → s < np → i1 Nx np r ≤ i0 Nx np s) ∧
    (∀ g, g < Nx ↔ ∃ r, r < np ∧ i0 Nx np r ≤ g ∧ g < i1 Nx np r) := by
  have hrp : 0 < rows_per Nx np := rows_per_pos hpos hle
  refine ⟨Nat.zero_mul _, i1_last Nx np, ?_, ?_, ?_, ?_, ?_⟩
  · intro r hr
    by_cases hlast : r = np - 1
    · subst hlast
      rw [i1_last]
      exact i0_le_Nx (Nat.le_of_lt hr)
    · rw [i1_of_ne hlast]
      exact Nat.mul_le_mul_right _ (Nat.le_succ r)
  · intro r hr
    rw [i1_of_ne (by omega)]
    rfl
  · intro r hr
    have h2 : i0 Nx np r = r * rows_per Nx np := rfl
    have h3 : rows_per Nx np = Nx / np := rfl
    rw [i1_of_ne (by omega), h2, h3, Nat.succ_mul]
    omega
  · intro r s hrs hs
    rw [i1_of_ne (by omega)]
    exact Nat.mul_le_mul_right _ hrs
  · intro g
    constructor
    · intro hg
      by_cases hq : g / rows_per Nx np < np - 1
      · refine ⟨g / rows_per Nx np, by omega, Nat.div_mul_le_self _ _, ?_⟩
        rw [i1_of_ne (by omega)]
        exact (Nat.div_lt_iff_lt_mul hrp).mp (Nat.lt_succ_self _)
      · refine ⟨np - 1, by omega, ?_, by rw [i1_last]; exact hg⟩
        calc i0 Nx np (np - 1) ≤ (g / rows_per Nx np) * rows_per Nx np :=
              Nat.mul_le_mul_right _ (by omega)
          _ ≤ g := Nat.div_mul_le_self _ _
    · rintro ⟨r, hr, -, hg1⟩
      by_cases hlast : r = np - 1
      · subst hlast
        rwa [i1_last] at hg1
      · rw [i1_of_ne hlast] at hg1
        calc g < (r + 1) * rows_per Nx np := hg1
          _ ≤ np * rows_per Nx np := Nat.mul_le_mul_right _ (by omega)
          _ = Nx / np * np := Nat.mul_comm _ _
          _ ≤ Nx := Nat.div_mul_le_self Nx np

/-- Witness for C2 at `Nx = 7`, `num_workers = 3`. -/
theorem planner_partition_witness :
    i0 7 3 0 = 0 ∧
    i1 7 3 (3 - 1) = 7 ∧
    (∀ r, r < 3 → i0 7 3 r ≤ i1 7 3 r) ∧
    (∀ r, r + 1 < 3 → i1 7 3 r = i0 7 3 (r + 1)) ∧
    (∀ r, r + 1 < 3 → i1 7 3 r - i0 7 3 r = 7 / 3) ∧
    (∀ r s, r < s → s < 3 → i1 7 3 r ≤ i0 7 3 s) ∧
    (∀ g, g < 7 ↔ ∃ r, r < 3 ∧ i0 7 3 r ≤ g ∧ g < i1 7 3 r) :=
  planner_partition 7 3 (by decide) (by decide)

/-- C9 counterexample: with `Nx = 2 < num_workers = 3` the planner does
not fail — it returns the row range `[0, 0)` for rank `0` and `[0, 2)`
for the highest rank `2`. -/
theorem planner_no_validation_cex :
    i0 2 3 0 = 0 ∧ i1 2 3 0 = 0 ∧ i0 2 3 2 = 0 ∧ i1 2 3 2 = 2 := by
  decide

/-- C9 (amended): the planner performs no configuration validation.
For `0 < num_workers` and `Nx < num_workers` it still returns a range:
`[0, 0)` (empty) for every rank below the highest, and `[0, Nx)` for
the highest rank. -/
theorem planner_no_validation (Nx np rank : Nat) (_hpos : 0 < np)
    (hlt : Nx < np) (hr : rank < np) :
    (rank < np - 1 → i0 Nx np rank = 0 ∧ i1 Nx np rank = 0) ∧
    (rank = np - 1 → i0 Nx np rank = 0 ∧ i1 Nx np rank = Nx) := by
  have hrp : rows_per Nx np = 0 := Nat.div_eq_of_lt hlt
  constructor
  · intro hlow
    rw [i0, i1_of_ne (by omega), hrp, Nat.mul_zero, Nat.mul_zero]
    exact ⟨rfl, rfl⟩
  · intro hlast
    subst hlast
    rw [i0, i1_last, hrp, Nat.mul_zero]
    exact ⟨rfl, rfl⟩

/-- Witness for the amended C9 at `Nx = 2`, `num_workers = 3`,
`rank = 1`. -/
theorem planner_no_validation_witness :
    (1 < 3 - 1 → i0 2 3 1 = 0 ∧ i1 2 3 1 = 0) ∧
    (1 = 3 - 1 → i0 2 3 1 = 0 ∧ i1 2 3 1 = 2) :=
  planner_no_validation 2 3 1 (by decide) (by decide) (by decide)

/-! ## Structure of the output of `update_block` -/

lemma updateRowAux_length (padded : Block) (Ny : Nat) (p f : ℚ)
    (g : Nat → ℚ) (i : Nat) :
    ∀ (m j k : Nat), (updateRowAux padded Ny p f g i j k m).1.length = m := by
  intro m
  induction m with
  | zero => intro j k; rfl
  | succ m ih =>
    intro j k
    simp only [updateRowAux, List.length_cons]
    rw [ih]

lemma updateRowsAux_length (padded : Block) (Ny : Nat) (p f : ℚ)
    (g : Nat → ℚ) :
    ∀ (m i k : Nat), (updateRowsAux padded Ny p f g i k m).1.length = m := by
  intro m
  induction m with
  | zero => intro i k; rfl
  | succ m ih =>
    intro i k
    simp only [updateRowsAux, List.length_cons]
    rw [ih]

/-- Every cell of the inner loop's output is the first component of
some `updateCell` call at the matching column, for some cursor. -/
lemma updateRowAux_getD (padded : Block) (Ny : Nat) (p f : ℚ)
    (g : Nat → ℚ) (i : Nat) :
    ∀ (m j k t : Nat), t < m →
      ∃ k', ((updateRowAux padded Ny p f g i j k m).1).getD t EMPTY
        = (updateCell padded Ny p f g i (j + t) k').1 := by
  intro m
  induction m with
  | zero => intro j k t ht; omega
  | succ m ih =>
    intro j k t ht
    match t with
    | 0 => exact ⟨k, rfl⟩
    | t + 1 =>
      obtain ⟨k', hk'⟩ := ih (j + 1) (updateCell padded Ny p f g i j k).2 t
        (by omega)
      refine ⟨k', ?_⟩
      simpa [updateRowAux, Nat.add_assoc, Nat.add_comm 1 t] using hk'

/-- Every row of the outer loop's output is the inner loop's output at
the matching row index, for some cursor. -/
lemma updateRowsAux_getD (padded : Block) (Ny : Nat) (p f : ℚ)
    (g : Nat → ℚ) :
    ∀ (m i k t : Nat), t < m →
      ∃ k', ((updateRowsAux padded Ny p f g i k m).1).getD t []
        = (updateRowAux padded Ny p f g (i + t) 0 k' Ny).1 := by
  intro m
  induction m with
  | zero => intro i k t ht; omega
  | succ m ih =>
    intro i k t ht
    match t with
    | 0 => exact ⟨k, rfl⟩
    | t + 1 =>
      obtain ⟨k', hk'⟩ := ih (i + 1)
        (updateRowAux padded Ny p f g i 0 k Ny).2 t (by omega)
      refine ⟨k', ?_⟩
      simpa [updateRowsAux, Nat.add_assoc, Nat.add_comm 1 t] using hk'

/-- Cell `(i, j)` of the output of `update_block` is `updateCell` on
the padded snapshot, at some cursor position. -/
lemma update_block_getCell (block : Block) (top bottom : Option Row)
    (Ny : Nat) (p f : ℚ) (g : Nat → ℚ) (k : Nat) {i j : Nat}
    (hi : i < block.length) (hj : j < Ny) :
    ∃ k', getCell (update_block block top bottom Ny p f g k).1 i j
      = (updateCell (mkPadded Ny block top bottom) Ny p f g i j k').1 := by
  obtain ⟨kr, hkr⟩ := updateRowsAux_getD (mkPadded Ny block top bottom)
    Ny p f g block.length 0 k i hi
  obtain ⟨kc, hkc⟩ := updateRowAux_getD (mkPadded Ny block top bottom)
    Ny p f g i Ny 0 kr j hj
  refine ⟨kc, ?_⟩
  unfold update_block getCell
  rw [hkr]
  simpa using hkc

/-- Padded row `i + 1` is row `i` of the block itself, for `i` in
range. -/
lemma mkPadded_getD_mid (Ny : Nat) (block : Block) (top bottom : Option Row)
    {i : Nat} (hi : i < block.length) :
    (mkPadded Ny block top bottom).getD (i + 1) [] = block.getD i [] := by
  simp only [mkPadded, List.getD_cons_succ]
  simp only [List.getD_eq_getElem?_getD]
  rw [List.getElem?_append_left hi]

/-- The centre read `s = padded[i+1, j]` of `updateCell` is cell
`(i, j)` of the original block. -/
lemma mkPadded_center (Ny : Nat) (block : Block) (top bottom : Option Row)
    {i : Nat} (hi : i < block.length) (j : Nat) :
    getCell (mkPadded Ny block top bottom) (i + 1) j = getCell block i j := by
  unfold getCell
  rw [mkPadded_getD_mid Ny block top bottom hi]

/-! ## C5: absent ghost rows behave as synthetic all-`EMPTY` rows -/

/-- C5: `update_block` with an absent (`None`) top ghost returns
exactly the same result (block and final cursor) as with an explicit
all-`EMPTY` top ghost row, and symmetrically for the bottom ghost: a
worker with no upper or lower neighbor evaluates its edge cells
against an all-`EMPTY` boundary. -/
theorem ghost_none_eq_empty_row (block : Block) (top bottom : Option Row)
    (Ny : Nat) (p f : ℚ) (g : Nat → ℚ) (k : Nat) :
    update_block block none bottom Ny p f g k
      = update_block block (some (List.replicate Ny EMPTY)) bottom Ny p f g k ∧
    update_block block top none Ny p f g k
      = update_block block top (some (List.replicate Ny EMPTY)) Ny p f g k :=
  ⟨rfl, rfl⟩

/-! ## C6: burning cells extinguish in exactly one step -/

/-- C6: whatever the ghost rows, the probabilities `p`, `f`, and the
random stream, a cell holding `BURN` is `EMPTY` in the block returned
by `update_block`. -/
theorem burning_becomes_empty (block : Block) (top bottom : Option Row)
    (Ny : Nat) (p f : ℚ) (g : Nat → ℚ) (k : Nat) {i j : Nat}
    (hi : i < block.length) (hj : j < Ny)
    (hburn : getCell block i j = BURN) :
    getCell (update_block block top bottom Ny p f g k).1 i j = EMPTY := by
  obtain ⟨k', hk'⟩ := update_block_getCell block top bottom Ny p f g k hi hj
  rw [hk']
  unfold updateCell
  rw [mkPadded_center Ny block top bottom hi j, hburn]
  simp

/-- Witness for C6: a lone burning cell, with nonzero `p` and `f`,
becomes empty. -/
theorem burning_becomes_empty_witness :
    (0 : Nat) < ([[(2 : Int)]] : Block).length ∧ (0 : Nat) < 1 ∧
    getCell [[(2 : Int)]] 0 0 = BURN ∧
    getCell (update_block [[(2 : Int)]] none none 1 (1/2) (1/2)
      (fun _ => 0) 0).1 0 0 = EMPTY :=
  ⟨by decide, by decide, by decide,
    burning_becomes_empty [[(2 : Int)]] none none 1 (1/2) (1/2)
      (fun _ => 0) 0 (by decide) (by decide) (by decide)⟩

/-! ## C4: every output cell is one of the three codes -/

/-- Every branch of the per-cell update writes one of the three codes,
whatever the input cell value (including invalid `int8` codes, which
take the `else` branch). -/
lemma updateCell_codes (padded : Block) (Ny : Nat) (p f : ℚ)
    (g : Nat → ℚ) (i j k : Nat) :
    (updateCell padded Ny p f g i j k).1 = EMPTY ∨
    (updateCell padded Ny p f g i j k).1 = TREE ∨
    (updateCell padded Ny p f g i j k).1 = BURN := by
  unfold updateCell
  by_cases h1 : getCell padded (i + 1) j = BURN <;>
    by_cases h2 : getCell padded (i + 1) j = TREE <;>
    by_cases h3 : mooreBurning padded Ny i j = true <;>
    by_cases h4 : g k < f <;> by_cases h5 : g k < p <;>
    simp [h1, h2, h3, h4, h5, (by decide : ¬(TREE = BURN)),
      (by decide : ¬(EMPTY = BURN)), (by decide : ¬(EMPTY = TREE))]

/-- Every cell of the inner loop's output comes from some `updateCell`
call. -/
lemma updateRowAux_mem (padded : Block) (Ny : Nat) (p f : ℚ)
    (g : Nat → ℚ) (i : Nat) :
    ∀ (m j k : Nat) (c : Cell),
      c ∈ (updateRowAux padded Ny p f g i j k m).1 →
      ∃ j' k', c = (updateCell padded Ny p f g i j' k').1 := by
  intro m
  induction m with
  | zero => intro j k c hc; simp [updateRowAux] at hc
  | succ m ih =>
    intro j k c hc
    simp only [updateRowAux, List.mem_cons] at hc
    rcases hc with h | h
    · exact ⟨j, k, h⟩
    · exact ih _ _ _ h

/-- Every row of the outer loop's output comes from some inner-loop
call. -/
lemma updateRowsAux_mem (padded : Block) (Ny : Nat) (p f : ℚ)
    (g : Nat → ℚ) :
    ∀ (m i k : Nat) (r : Row),
      r ∈ (updateRowsAux padded Ny p f g i k m).1 →
      ∃ i' k', r = (updateRowAux padded Ny p f g i' 0 k' Ny).1 := by
  intro m
  induction m with
  | zero => intro i k r hr; simp [updateRowsAux] at hr
  | succ m ih =>
    intro i k r hr
    simp only [updateRowsAux, List.mem_cons] at hr
    rcases hr with h | h
    · exact ⟨i, k, h⟩
    · exact ih _ _ _ h

/-- C4: whatever the input block's cell values (any `int8` codes, not
only the three valid ones), the ghost rows, and `p`, `f`, every cell of
the block returned by `update_block` is `EMPTY`, `TREE` or `BURN`. -/
theorem update_block_codomain (block : Block) (top bottom : Option Row)
    (Ny : Nat) (p f : ℚ) (g : Nat → ℚ) (k : Nat) {r : Row} {c : Cell}
    (hr : r ∈ (update_block block top bottom Ny p f g k).1)
    (hc : c ∈ r) : c = EMPTY ∨ c = TREE ∨ c = BURN := by
  obtain ⟨i', k', hrow⟩ := updateRowsAux_mem _ Ny p f g _ _ _ r hr
  subst hrow
  obtain ⟨j', k'', hcell⟩ := updateRowAux_mem _ Ny p f g i' Ny 0 k' c hc
  subst hcell
  exact updateCell_codes _ Ny p f g i' j' k''

/-- Witness for C4: a cell holding the invalid code `5` is mapped into
the valid codomain. -/
theorem update_block_codomain_witness :
    [(0 : Int)] ∈ (update_block [[(5 : Int)]] none none 1 0 0
      (fun _ => 0) 0).1 ∧
    (0 : Int) ∈ [(0 : Int)] ∧
    ((0 : Int) = EMPTY ∨ (0 : Int) = TREE ∨ (0 : Int) = BURN) :=
  ⟨by decide, by decide,
    @update_block_codomain [[(5 : Int)]] none none 1 0 0 (fun _ => 0) 0
      [(0 : Int)] (0 : Int) (by decide) (by decide)⟩

/-! ## C8: shape preservation and snapshot ("frame") discipline

In this pure embedding the Python-side facts that `update_block`
allocates a fresh output array and never writes to its arguments are
inherent (all values are immutable); the content that remains to prove
is that the result has the shape of the input block and that each
output cell is computed by `updateCell` purely from the padded snapshot
`mkPadded Ny block top bottom` of the old block and ghost rows — never
from already-updated cells. -/

/-- C8: the block returned by `update_block` has the same shape as its
input (`block.length` rows of `Ny` cells), and each of its cells is
`updateCell` evaluated on the pre-step padded snapshot. -/
theorem update_block_frame (block : Block) (top bottom : Option Row)
    (Ny : Nat) (p f : ℚ) (g : Nat → ℚ) (k : Nat) {i j : Nat}
    (hi : i < block.length) (hj : j < Ny) :
    (update_block block top bottom Ny p f g k).1.length = block.length ∧
    (∀ r ∈ (update_block block top bottom Ny p f g k).1, r.length = Ny) ∧
    ∃ k', getCell (update_block block top bottom Ny p f g k).1 i j
      = (updateCell (mkPadded Ny block top bottom) Ny p f g i j k').1 := by
  refine ⟨updateRowsAux_length _ Ny p f g _ _ _, ?_, ?_⟩
  · intro r hr
    obtain ⟨i', k', hrow⟩ := updateRowsAux_mem _ Ny p f g _ _ _ r hr
    subst hrow
    exact updateRowAux_length _ Ny p f g i' Ny 0 k'
  · exact update_block_getCell block top bottom Ny p f g k hi hj

/-- Witness for C8 on a 1×1 block. -/
theorem update_block_frame_witness :
    (update_block [[(1 : Int)]] none none 1 0 0 (fun _ => 0) 0).1.length
        = ([[(1 : Int)]] : Block).length ∧
    (∀ r ∈ (update_block [[(1 : Int)]] none none 1 0 0
        (fun _ => 0) 0).1, r.length = 1) ∧
    ∃ k', getCell (update_block [[(1 : Int)]] none none 1 0 0
        (fun _ => 0) 0).1 0 0
      = (updateCell (mkPadded 1 [[(1 : Int)]] none none) 1 0 0
        (fun _ => 0) 0 0 k').1 :=
  update_block_frame [[(1 : Int)]] none none 1 0 0 (fun _ => 0) 0
    (by decide) (by decide)

/-! ## C3: tree ignition by a burning Moore neighbor (`f = 0`) -/

/-- The claim's reading of the neighborhood condition: one of the 8
Moore positions of local cell `(i, j)` in the padded block — column
inside `[0, Ny)`, no wraparound — holds `BURN`. -/
def hasBurningMooreNeighbor (padded : Block) (Ny i j : Nat) : Prop :=
  ∃ d ∈ offsets, 0 ≤ (j : Int) + d.2 ∧ (j : Int) + d.2 < (Ny : Int) ∧
    getCell padded ((i : Int) + 1 + d.1).toNat ((j : Int) + d.2).toNat = BURN

lemma neighborIsBurn_iff (padded : Block) (Ny i j : Nat) (d : Int × Int) :
    neighborIsBurn padded Ny i j d = true ↔
      0 ≤ (j : Int) + d.2 ∧ (j : Int) + d.2 < (Ny : Int) ∧
      getCell padded ((i : Int) + 1 + d.1).toNat ((j : Int) + d.2).toNat
        = BURN := by
  unfold neighborIsBurn
  dsimp only
  split_ifs with h
  · simp only [Bool.false_eq_true, false_iff]
    rintro ⟨h1, h2, -⟩
    omega
  · rw [decide_eq_true_iff]
    push_neg at h
    exact ⟨fun hc => ⟨by omega, by omega, hc⟩, fun hc => hc.2.2⟩

lemma mooreBurning_iff (padded : Block) (Ny i j : Nat) :
    mooreBurning padded Ny i j = true ↔
      hasBurningMooreNeighbor padded Ny i j := by
  unfold mooreBurning hasBurningMooreNeighbor
  rw [List.any_eq_true]
  simp only [neighborIsBurn_iff]

/-- The value `update_block` writes for a `TREE` cell when `f = 0` and
the random draws are nonnegative (numpy draws lie in `[0, 1)`). -/
lemma updateCell_tree (padded : Block) (Ny : Nat) (p : ℚ) (g : Nat → ℚ)
    (i j k : Nat) (hs : getCell padded (i + 1) j = TREE)
    (hg : ∀ n, 0 ≤ g n) :
    (updateCell padded Ny p 0 g i j k).1
      = if mooreBurning padded Ny i j = true then BURN else TREE := by
  have hnotlt : ¬ g k < 0 := not_lt.mpr (hg k)
  unfold updateCell
  simp only [hs, hnotlt, (by decide : ¬(TREE = BURN)), if_neg, if_true,
    if_false, reduceIte]
  split_ifs <;> rfl

/-- C3: with `f = 0` (and any `p`), a `TREE` cell of the input block
becomes `BURN` in the output of `update_block` iff one of its 8 Moore
positions in the padded block holds `BURN` (vertical neighbors possibly
in the ghost rows, columns outside `[0, Ny)` absent), and remains
`TREE` otherwise. -/
theorem tree_ignition (block : Block) (top bottom : Option Row)
    (Ny : Nat) (p : ℚ) (g : Nat → ℚ) (k : Nat) {i j : Nat}
    (hi : i < block.length) (hj : j < Ny)
    (htree : getCell block i j = TREE) (hg : ∀ n, 0 ≤ g n) :
    (getCell (update_block block top bottom Ny p 0 g k).1 i j = BURN ↔
      hasBurningMooreNeighbor (mkPadded Ny block top bottom) Ny i j) ∧
    (getCell (update_block block top bottom Ny p 0 g k).1 i j = TREE ↔
      ¬ hasBurningMooreNeighbor (mkPadded Ny block top bottom) Ny i j) := by
  obtain ⟨k', hk'⟩ := update_block_getCell block top bottom Ny p 0 g k hi hj
  have hs : getCell (mkPadded Ny block top bottom) (i + 1) j = TREE := by
    rw [mkPadded_center Ny block top bottom hi j]
    exact htree
  rw [hk', updateCell_tree _ Ny p g i j k' hs hg]
  by_cases hmb : mooreBurning (mkPadded Ny block top bottom) Ny i j = true
  · rw [if_pos hmb]
    have hrhs := (mooreBurning_iff _ Ny i j).mp hmb
    exact ⟨⟨fun _ => hrhs, fun _ => rfl⟩,
      ⟨fun h => absurd h (by decide), fun h => (h hrhs).elim⟩⟩
  · rw [if_neg hmb]
    exact ⟨⟨fun h => absurd h (by decide),
        fun h => (hmb ((mooreBurning_iff _ Ny i j).mpr h)).elim⟩,
      ⟨fun _ h => hmb ((mooreBurning_iff _ Ny i j).mpr h), fun _ => rfl⟩⟩

/-- Witness for C3: a tree next to a burning cell, `f = 0`,
`p = 1/2`. -/
theorem tree_ignition_witness :
    (getCell (update_block [[(1 : Int), 2]] none none 2 (1/2) 0
        (fun _ => 0) 0).1 0 0 = BURN ↔
      hasBurningMooreNeighbor (mkPadded 2 [[(1 : Int), 2]] none none)
        2 0 0) ∧
    (getCell (update_block [[(1 : Int), 2]] none none 2 (1/2) 0
        (fun _ => 0) 0).1 0 0 = TREE ↔
      ¬ hasBurningMooreNeighbor (mkPadded 2 [[(1 : Int), 2]] none none)
        2 0 0) :=
  tree_ignition [[(1 : Int), 2]] none none 2 (1/2) (fun _ => 0) 0
    (by decide) (by decide) (by decide) (fun _ => le_refl 0)

/-! ## Deterministic normal form of the update rule at `p = f = 0`

With `p = f = 0` and draws in `[0, 1)` the two probabilistic branches
can never fire, so the new value of a cell is a function of the padded
snapshot alone. -/

/-- Deterministic per-cell update at `p = f = 0`. -/
def pureCell (padded : Block) (Ny i j : Nat) : Cell :=
  let s := getCell padded (i + 1) j
  if s = BURN then EMPTY
  else if s = TREE then
    if mooreBurning padded Ny i j then BURN else TREE
  else EMPTY

lemma updateCell_pure (padded : Block) (Ny : Nat) (g : Nat → ℚ)
    (hg : ∀ n, 0 ≤ g n) (i j k : Nat) :
    (updateCell padded Ny 0 0 g i j k).1 = pureCell padded Ny i j := by
  have h : ¬ g k < 0 := not_lt.mpr (hg k)
  unfold updateCell pureCell
  dsimp only
  split_ifs <;> rfl

lemma updateRowAux_pure (padded : Block) (Ny : Nat) (g : Nat → ℚ)
    (hg : ∀ n, 0 ≤ g n) (i : Nat) :
    ∀ (m j k : Nat),
      (updateRowAux padded Ny 0 0 g i j k m).1
        = (List.range' j m).map (pureCell padded Ny i) := by
  intro m
  induction m with
  | zero => intro j k; rfl
  | succ m ih =>
    intro j k
    rw [List.range'_succ, List.map_cons]
    simp only [updateRowAux]
    rw [ih, updateCell_pure padded Ny g hg]

lemma updateRowsAux_pure (padded : Block) (Ny : Nat) (g : Nat → ℚ)
    (hg : ∀ n, 0 ≤ g n) :
    ∀ (m i k : Nat),
      (updateRowsAux padded Ny 0 0 g i k m).1
        = (List.range' i m).map
            (fun r => (List.range' 0 Ny).map (pureCell padded Ny r)) := by
  intro m
  induction m with
  | zero => intro i k; rfl
  | succ m ih =>
    intro i k
    rw [List.range'_succ, List.map_cons]
    simp only [updateRowsAux]
    rw [ih, updateRowAux_pure padded Ny g hg]

/-- At `p = f = 0` the whole of `update_block` is the deterministic
pointwise function of the padded snapshot. -/
lemma update_block_pure (block : Block) (top bottom : Option Row)
    (Ny : Nat) (g : Nat → ℚ) (hg : ∀ n, 0 ≤ g n) (k : Nat) :
    (update_block block top bottom Ny 0 0 g k).1
      = (List.range' 0 block.length).map
          (fun r => (List.range' 0 Ny).map
            (pureCell (mkPadded Ny block top bottom) Ny r)) := by
  unfold update_block
  rw [updateRowsAux_pure _ Ny g hg]

/-! ## C7: the sequential step agrees with `update_block` at `p = f = 0` -/

lemma mkPadded_getD_last (Ny : Nat) (block : Block) (top bottom : Option Row) :
    (mkPadded Ny block top bottom).getD (block.length + 1) []
      = padRow Ny bottom := by
  simp only [mkPadded, List.getD_cons_succ]
  simp only [List.getD_eq_getElem?_getD]
  rw [List.getElem?_append_right (Nat.le_refl _)]
  simp

lemma replicate_getD_empty (Ny j : Nat) :
    (List.replicate Ny EMPTY).getD j EMPTY = EMPTY := by
  rw [List.getD_eq_getElem?_getD, List.getElem?_replicate]
  split_ifs <;> rfl

lemma offsets_fst {d : Int × Int} (hd : d ∈ offsets) :
    d.1 = -1 ∨ d.1 = 0 ∨ d.1 = 1 := by
  fin_cases hd <;> decide

lemma listAny_congr {l : List (Int × Int)} {p q : Int × Int → Bool}
    (h : ∀ a ∈ l, p a = q a) : l.any p = l.any q := by
  induction l with
  | nil => rfl
  | cons a l ih =>
    simp only [List.any_cons, h a (List.mem_cons_self a l),
      ih (fun b hb => h b (List.mem_cons_of_mem a hb))]

/-- Each contribution to the sequential neighbor mask coincides with
the corresponding Moore test on the block padded with synthetic
all-`EMPTY` boundary rows (the out-of-grid vertical positions read the
synthetic `EMPTY` rows, which are never `BURN`). -/
lemma seqNeighbor_eq_mooreNeighbor (grid : Block) (Ny : Nat) {i : Nat}
    (hi : i < grid.length) (j : Nat) {d : Int × Int} (hd : d ∈ offsets) :
    seqNeighborBurn grid grid.length Ny i j d
      = neighborIsBurn (mkPadded Ny grid none none) Ny i j d := by
  have hd1 := offsets_fst hd
  unfold seqNeighborBurn neighborIsBurn
  dsimp only
  by_cases hcol : (j : Int) + d.2 < 0 ∨ (Ny : Int) ≤ (j : Int) + d.2
  · rw [if_pos (by tauto), if_pos hcol]
  · rw [if_neg hcol]
    by_cases hrow : (i : Int) + d.1 < 0 ∨ (grid.length : Int) ≤ (i : Int) + d.1
    · rw [if_pos (by tauto)]
      have hcell : getCell (mkPadded Ny grid none none)
          ((i : Int) + 1 + d.1).toNat ((j : Int) + d.2).toNat = EMPTY := by
        have hidx : ((i : Int) + 1 + d.1).toNat = 0 ∨
            ((i : Int) + 1 + d.1).toNat = grid.length + 1 := by omega
        unfold getCell
        rcases hidx with h0 | hlast
        · rw [h0]
          exact replicate_getD_empty Ny _
        · rw [hlast, mkPadded_getD_last]
          exact replicate_getD_empty Ny _
      rw [hcell]
      decide
    · rw [if_neg (show ¬((i : Int) + d.1 < 0 ∨ (grid.length : Int) ≤ (i : Int) + d.1 ∨
          (j : Int) + d.2 < 0 ∨ (Ny : Int) ≤ (j : Int) + d.2) by tauto)]
      have hidx : ((i : Int) + 1 + d.1).toNat = ((i : Int) + d.1).toNat + 1 := by
        omega
      have hlt : ((i : Int) + d.1).toNat < grid.length := by omega
      rw [hidx]
      unfold getCell
      rw [mkPadded_getD_mid Ny grid none none hlt]

lemma seqMask_eq_mooreBurning (grid : Block) (Ny : Nat) {i : Nat}
    (hi : i < grid.length) (j : Nat) :
    seqMask grid grid.length Ny i j
      = mooreBurning (mkPadded Ny grid none none) Ny i j := by
  unfold seqMask mooreBurning
  exact listAny_congr (fun d hd => seqNeighbor_eq_mooreNeighbor grid Ny hi j hd)

/-- Any cell read from a grid whose cells are all valid codes is a
valid code (out-of-range reads return the default `EMPTY`). -/
lemma getCell_codes (grid : Block)
    (hcodes : ∀ r ∈ grid, ∀ c ∈ r, c = EMPTY ∨ c = TREE ∨ c = BURN)
    (i j : Nat) :
    getCell grid i j = EMPTY ∨ getCell grid i j = TREE ∨
      getCell grid i j = BURN := by
  unfold getCell
  by_cases hi : i < grid.length
  · have hrow : grid.getD i [] ∈ grid := by
      rw [List.getD_eq_getElem _ _ hi]
      exact List.getElem_mem hi
    by_cases hj : j < (grid.getD i []).length
    · refine hcodes _ hrow _ ?_
      rw [List.getD_eq_getElem _ _ hj]
      exact List.getElem_mem hj
    · left
      exact List.getD_eq_default _ _ (by omega)
  · left
    have h0 : grid.getD i [] = ([] : Row) :=
      List.getD_eq_default _ _ (by omega)
    rw [h0]
    rfl

/-- Pointwise agreement of the sequential `step` cell rule with the
deterministic `update_block` cell rule at `p = f = 0`, for grids over
valid codes and draws in `[0, 1)`. -/
lemma stepCell_eq_pureCell (grid : Block) (Ny : Nat)
    (rf rp : Nat → Nat → ℚ)
    (hrf : ∀ a b, 0 ≤ rf a b) (hrp : ∀ a b, 0 ≤ rp a b)
    (hcodes : ∀ r ∈ grid, ∀ c ∈ r, c = EMPTY ∨ c = TREE ∨ c = BURN)
    {i : Nat} (hi : i < grid.length) (j : Nat) :
    stepCell grid grid.length Ny 0 0 rf rp i j
      = pureCell (mkPadded Ny grid none none) Ny i j := by
  have hs : getCell (mkPadded Ny grid none none) (i + 1) j
      = getCell grid i j := mkPadded_center Ny grid none none hi j
  have hif : ¬ rf i j < 0 := not_lt.mpr (hrf i j)
  have hip : ¬ rp i j < 0 := not_lt.mpr (hrp i j)
  unfold stepCell pureCell
  dsimp only
  rw [hs, seqMask_eq_mooreBurning grid Ny hi j]
  rcases getCell_codes grid hcodes i j with h | h | h <;> rw [h] <;>
    simp [hip, hif, (by decide : ¬(EMPTY = TREE)),
      (by decide : ¬(EMPTY = BURN)), (by decide : ¬(TREE = EMPTY)),
      (by decide : ¬(TREE = BURN)), (by decide : ¬(BURN = EMPTY)),
      (by decide : ¬(BURN = TREE))]

/-- C7: for a grid of valid cell codes and `p = f = 0`, one sequential
vectorized `step` equals `update_block` applied to the whole grid with
both ghost rows absent (whatever random draws either side makes). -/
theorem step_eq_update_block (grid : Block) (Ny : Nat) (g : Nat → ℚ)
    (rf rp : Nat → Nat → ℚ) (k : Nat)
    (hcodes : ∀ r ∈ grid, ∀ c ∈ r, c = EMPTY ∨ c = TREE ∨ c = BURN)
    (hg : ∀ n, 0 ≤ g n) (hrf : ∀ a b, 0 ≤ rf a b)
    (hrp : ∀ a b, 0 ≤ rp a b) :
    step grid Ny 0 0 rf rp = (update_block grid none none Ny 0 0 g k).1 := by
  rw [update_block_pure grid none none Ny g hg k]
  unfold step
  refine List.map_congr_left (fun i hmem => ?_)
  have hi : i < grid.length := by
    obtain ⟨t, ht, rfl⟩ := List.mem_range'.mp hmem
    omega
  exact List.map_congr_left
    (fun j _ => stepCell_eq_pureCell grid Ny rf rp hrf hrp hcodes hi j)

/-- Witness for C7 on a 2×2 grid with one burning cell. -/
theorem step_eq_update_block_witness :
    step [[(1 : Int), 2], [1, 1]] 2 0 0 (fun _ _ => 0) (fun _ _ => 0)
      = (update_block [[(1 : Int), 2], [1, 1]] none none 2 0 0
          (fun _ => 0) 0).1 :=
  step_eq_update_block [[(1 : Int), 2], [1, 1]] 2 (fun _ => 0)
    (fun _ _ => 0) (fun _ _ => 0) 0 (by decide) (fun _ => le_refl 0)
    (fun _ _ => le_refl 0) (fun _ _ => le_refl 0)

/-! ## C1: partition invariance at `p = f = 0`

Splitting the grid into contiguous row blocks, updating each block with
the neighboring blocks' boundary rows as ghost rows (as the workers do
after the per-step exchange), and concatenating, gives the same result
as updating the whole grid with no ghosts. -/

lemma getD_append_left {α : Type} {l1 l2 : List α} {d : α} {n : Nat}
    (h : n < l1.length) : (l1 ++ l2).getD n d = l1.getD n d := by
  simp only [List.getD_eq_getElem?_getD]
  rw [List.getElem?_append_left h]

lemma getD_append_right {α : Type} {l1 l2 : List α} {d : α} {n : Nat}
    (h : l1.length ≤ n) : (l1 ++ l2).getD n d = l2.getD (n - l1.length) d := by
  simp only [List.getD_eq_getElem?_getD]
  rw [List.getElem?_append_right h]

lemma headD_eq_getD_zero (l : List Row) : l.headD [] = l.getD 0 [] := by
  cases l <;> rfl

lemma getLastD_eq_getD (l : List Row) :
    l.getLastD [] = l.getD (l.length - 1) [] := by
  rw [List.getLastD_eq_getLast?, List.getLast?_eq_getElem?,
    List.getD_eq_getElem?_getD]

/-- The Moore scan only reads the three padded rows `t`, `t+1`, `t+2`
around a local row `t`; two padded blocks that agree there (up to a row
offset `r0`) give the same neighbor test. -/
lemma neighborIsBurn_localize (p1 p2 : Block) (Ny t r0 j : Nat)
    (hrows : ∀ u, u ≤ 2 → p1.getD (t + u) [] = p2.getD (r0 + t + u) [])
    {d : Int × Int} (hd : d ∈ offsets) :
    neighborIsBurn p1 Ny t j d = neighborIsBurn p2 Ny (r0 + t) j d := by
  have hd1 := offsets_fst hd
  unfold neighborIsBurn
  dsimp only
  by_cases hcol : (j : Int) + d.2 < 0 ∨ (Ny : Int) ≤ (j : Int) + d.2
  · rw [if_pos hcol, if_pos hcol]
  · rw [if_neg hcol, if_neg hcol]
    have h1 : ((t : Int) + 1 + d.1).toNat = t + (1 + d.1).toNat := by omega
    have h2 : (((r0 + t : Nat) : Int) + 1 + d.1).toNat
        = r0 + t + (1 + d.1).toNat := by omega
    rw [h1, h2]
    unfold getCell
    rw [hrows _ (by omega)]

/-- The deterministic cell update only reads the three padded rows
around its cell. -/
lemma pureCell_localize (p1 p2 : Block) (Ny t r0 j : Nat)
    (hrows : ∀ u, u ≤ 2 → p1.getD (t + u) [] = p2.getD (r0 + t + u) []) :
    pureCell p1 Ny t j = pureCell p2 Ny (r0 + t) j := by
  have hc : getCell p1 (t + 1) j = getCell p2 (r0 + t + 1) j := by
    unfold getCell
    rw [hrows 1 (by omega)]
  have hm : mooreBurning p1 Ny t j = mooreBurning p2 Ny (r0 + t) j := by
    unfold mooreBurning
    exact listAny_congr
      (fun d hd => neighborIsBurn_localize p1 p2 Ny t r0 j hrows hd)
  unfold pureCell
  dsimp only
  rw [hc, hm]

/-- The output of `update_block` on a sub-block whose padded rows agree
with rows `r0, …, r0 + rows + 1` of the globally padded grid is the
corresponding slice of the pure global update. -/
lemma update_block_pure_localized (G b : Block) (Ny : Nat) (g : Nat → ℚ)
    (hg : ∀ n, 0 ≤ g n) (prev bot : Option Row) (r0 : Nat)
    (hrows : ∀ v, v ≤ b.length + 1 →
      (mkPadded Ny b prev bot).getD v []
        = (mkPadded Ny G none none).getD (r0 + v) []) :
    (update_block b prev bot Ny 0 0 g 0).1
      = (List.range' r0 b.length).map
          (fun r => (List.range' 0 Ny).map
            (pureCell (mkPadded Ny G none none) Ny r)) := by
  rw [update_block_pure b prev bot Ny g hg 0]
  rw [List.range'_eq_map_range 0 b.length,
    List.range'_eq_map_range r0 b.length, List.map_map, List.map_map]
  refine List.map_congr_left (fun t ht => ?_)
  have htL : t < b.length := List.mem_range.mp ht
  dsimp only [Function.comp]
  refine List.map_congr_left (fun j _ => ?_)
  rw [Nat.zero_add]
  refine pureCell_localize _ _ Ny t r0 j (fun u hu => ?_)
  rw [hrows (t + u) (by omega),
    (show r0 + (t + u) = r0 + t + u by omega)]

/-- The distributed computation of one step over a contiguous split of
the grid into row blocks, as the workers perform it after the ghost-row
exchange: each block is updated by `update_block` with the previous
block's last row as top ghost (`prev`; absent for the first block) and
the next block's first row as bottom ghost (absent for the last block),
and the results are concatenated in rank order. -/
def runParts (Ny : Nat) (p f : ℚ) (g : Nat → ℚ) :
    Option Row → List Block → Block
  | _, [] => []
  | prev, b :: rest =>
    (update_block b prev
        (match rest with
          | [] => none
          | b' :: _ => some (b'.headD [])) Ny p f g 0).1
      ++ runParts Ny p f g (some (b.getLastD [])) rest

/-- Generalized partition invariance: if `pre ++ parts.join = G`, the
blocks are nonempty, and the pending top ghost agrees with padded-grid
row `pre.length`, then running the parts yields rows
`pre.length, …, pre.length + parts.join.length - 1` of the pure global
update. -/
lemma runParts_pure (G : Block) (Ny : Nat) (g : Nat → ℚ)
    (hg : ∀ n, 0 ≤ g n) :
    ∀ (parts : List Block) (pre : Block) (prev : Option Row),
      pre ++ parts.flatten = G →
      (∀ b ∈ parts, b ≠ []) →
      padRow Ny prev = (mkPadded Ny G none none).getD pre.length [] →
      runParts Ny 0 0 g prev parts
        = (List.range' pre.length parts.flatten.length).map
            (fun r => (List.range' 0 Ny).map
              (pureCell (mkPadded Ny G none none) Ny r)) := by
  intro parts
  induction parts with
  | nil => intro pre prev h1 h2 h3; rfl
  | cons b rest ih =>
    intro pre prev hpre hne hprev
    have hbne : b ≠ [] := hne b (List.mem_cons_self b rest)
    have hL : 0 < b.length := List.length_pos.mpr hbne
    have hpre' : pre ++ (b ++ rest.flatten) = G := hpre
    have hGlen : G.length = pre.length + (b.length + rest.flatten.length) := by
      rw [← hpre']
      simp [List.length_append]
    have hGmid : ∀ s, s < b.length →
        G.getD (pre.length + s) [] = b.getD s [] := by
      intro s hs
      rw [← hpre', getD_append_right (by omega), Nat.add_sub_cancel_left,
        getD_append_left hs]
    rcases rest with _ | ⟨b', rest'⟩
    · -- last block: bottom ghost absent
      have hGL : G.length = pre.length + b.length := by
        simpa using hGlen
      have hrows_all : ∀ v, v ≤ b.length + 1 →
          (mkPadded Ny b prev none).getD v []
            = (mkPadded Ny G none none).getD (pre.length + v) [] := by
        intro v hv
        match v with
        | 0 => exact hprev
        | v + 1 =>
          by_cases hvL : v < b.length
          · rw [mkPadded_getD_mid Ny b prev none hvL,
              (show pre.length + (v + 1) = (pre.length + v) + 1 by omega),
              mkPadded_getD_mid Ny G none none (show pre.length + v < G.length by omega),
              hGmid v hvL]
          · have hvL' : v = b.length := by omega
            subst hvL'
            rw [mkPadded_getD_last Ny b prev none,
              (show pre.length + (b.length + 1) = G.length + 1 by omega),
              mkPadded_getD_last Ny G none none]
      have hfirst := update_block_pure_localized G b Ny g hg prev none
        pre.length hrows_all
      show (update_block b prev none Ny 0 0 g 0).1
          ++ runParts Ny 0 0 g (some (b.getLastD [])) [] = _
      rw [hfirst]
      simp [runParts]
    · -- middle block: bottom ghost is the head row of the next block
      have hb'ne : b' ≠ [] := hne b' (by simp)
      have hb'L : 0 < b'.length := List.length_pos.mpr hb'ne
      have hjlen : 0 < (b' :: rest').flatten.length := by
        simp only [List.flatten_cons, List.length_append]
        omega
      have hrows_all : ∀ v, v ≤ b.length + 1 →
          (mkPadded Ny b prev (some (b'.headD []))).getD v []
            = (mkPadded Ny G none none).getD (pre.length + v) [] := by
        intro v hv
        match v with
        | 0 => exact hprev
        | v + 1 =>
          by_cases hvL : v < b.length
          · rw [mkPadded_getD_mid Ny b prev (some (b'.headD [])) hvL,
              (show pre.length + (v + 1) = (pre.length + v) + 1 by omega),
              mkPadded_getD_mid Ny G none none (show pre.length + v < G.length by omega),
              hGmid v hvL]
          · have hvL' : v = b.length := by omega
            subst hvL'
            rw [mkPadded_getD_last Ny b prev (some (b'.headD [])),
              (show pre.length + (b.length + 1) = (pre.length + b.length) + 1 by omega),
              mkPadded_getD_mid Ny G none none (show pre.length + b.length < G.length by omega)]
            show b'.headD [] = G.getD (pre.length + b.length) []
            rw [← hpre', getD_append_right (by omega), Nat.add_sub_cancel_left,
              getD_append_right (Nat.le_refl _), Nat.sub_self]
            show _ = (b' ++ rest'.flatten).getD 0 []
            rw [getD_append_left hb'L, headD_eq_getD_zero]
      have hfirst := update_block_pure_localized G b Ny g hg prev
        (some (b'.headD [])) pre.length hrows_all
      have hprev' : padRow Ny (some (b.getLastD []))
          = (mkPadded Ny G none none).getD (pre ++ b).length [] := by
        rw [List.length_append]
        rw [(show pre.length + b.length = (pre.length + (b.length - 1)) + 1 by omega),
          mkPadded_getD_mid Ny G none none
            (show pre.length + (b.length - 1) < G.length by omega),
          hGmid (b.length - 1) (by omega)]
        show b.getLastD [] = _
        rw [getLastD_eq_getD]
      have hrec := ih (pre ++ b) (some (b.getLastD []))
        (by rw [List.append_assoc]; exact hpre')
        (fun x hx => hne x (List.mem_cons_of_mem b hx))
        hprev'
      show (update_block b prev (some (b'.headD [])) Ny 0 0 g 0).1
          ++ runParts Ny 0 0 g (some (b.getLastD [])) (b' :: rest') = _
      rw [hfirst, hrec, List.length_append, ← List.map_append,
        List.range'_append_1]
      have hcount : (b :: b' :: rest').flatten.length
          = (b' :: rest').flatten.length + b.length := by
        rw [List.flatten_cons, List.length_append, Nat.add_comm]
      rw [hcount]

/-- C1: for a grid `G` of valid cell codes, `p = f = 0`, and any
contiguous split of `G` into nonempty row blocks, running
`update_block` on each block — top ghost = last row of the block above
(absent for the first), bottom ghost = first row of the block below
(absent for the last) — and concatenating in order equals
`update_block` on the whole of `G` with both ghosts absent. -/
theorem partition_invariance (G : Block) (parts : List Block) (Ny : Nat)
    (g : Nat → ℚ)
    (_hcodes : ∀ r ∈ G, ∀ c ∈ r, c = EMPTY ∨ c = TREE ∨ c = BURN)
    (hjoin : parts.flatten = G) (hne : ∀ b ∈ parts, b ≠ [])
    (hg : ∀ n, 0 ≤ g n) :
    runParts Ny 0 0 g none parts
      = (update_block G none none Ny 0 0 g 0).1 := by
  rw [update_block_pure G none none Ny g hg 0]
  have h := runParts_pure G Ny g hg parts [] none (by simpa using hjoin)
    hne rfl
  rw [h, hjoin]
  rfl

/-- Witness for C1: a 4×4 all-tree grid with one burning cell, split
into two 2-row blocks (the spec's concrete scenario). -/
theorem partition_invariance_witness :
    runParts 4 0 0 (fun _ => 0) none
        [[[(1 : Int), 1, 1, 1], [1, 1, 2, 1]], [[1, 1, 1, 1], [1, 1, 1, 1]]]
      = (update_block
          [[(1 : Int), 1, 1, 1], [1, 1, 2, 1], [1, 1, 1, 1], [1, 1, 1, 1]]
          none none 4 0 0 (fun _ => 0) 0).1 :=
  partition_invariance
    [[(1 : Int), 1, 1, 1], [1, 1, 2, 1], [1, 1, 1, 1], [1, 1, 1, 1]]
    [[[(1 : Int), 1, 1, 1], [1, 1, 2, 1]], [[1, 1, 1, 1], [1, 1, 1, 1]]]
    4 (fun _ => 0) (by decide) (by decide) (by decide)
    (fun _ => le_refl 0)

/-! ## C10: connection-setup retry policy (`worker.py`, lines 86–92)

```python
while True:
    try:
        s.connect(('127.0.0.1', up_port))
        up_sock = s
        break
    except Exception:
        time.sleep(0.05)
```

The `except Exception:` clause catches *every* failure, transient or
not, and retries after the fixed delay. -/

/-- Outcome of one `s.connect(...)` attempt: success, the transient
connection-refused case (peer not yet listening), or any other error
(e.g., unreachable address). -/
inductive ConnectOutcome
  | success
  | refused
  | otherError
deriving DecidableEq

/-- The worker's connect loop over an oracle `outcome k` giving the
result of the `k`-th attempt.  The catch-all `except Exception` means
every non-success outcome falls to the same retry branch.  `fuel`
bounds how many attempts we observe (the Python loop is unbounded);
the result is the index of the first successful attempt, or `none` if
no observed attempt succeeded (the loop is still running). -/
def connectLoop (outcome : Nat → ConnectOutcome) : Nat → Nat → Option Nat
  | 0, _ => none
  | fuel + 1, k =>
    match outcome k with
    | ConnectOutcome.success => some k
    | _ => connectLoop outcome fuel (k + 1)

/-- The loop can only ever stop by a successful attempt, at an index no
earlier than where it started. -/
lemma connectLoop_some (outcome : Nat → ConnectOutcome) :
    ∀ (fuel k m : Nat), connectLoop outcome fuel k = some m →
      outcome m = ConnectOutcome.success ∧ k ≤ m := by
  intro fuel
  induction fuel with
  | zero => intro k m h; cases h
  | succ fuel ih =>
    intro k m h
    unfold connectLoop at h
    cases houtcome : outcome k with
    | success =>
      rw [houtcome] at h
      cases h
      exact ⟨houtcome, Nat.le_refl _⟩
    | refused =>
      rw [houtcome] at h
      obtain ⟨h1, h2⟩ := ih (k + 1) m h
      exact ⟨h1, by omega⟩
    | otherError =>
      rw [houtcome] at h
      obtain ⟨h1, h2⟩ := ih (k + 1) m h
      exact ⟨h1, by omega⟩

/-- C10 counterexample: the first connect attempt fails with a
non-transient error, yet the worker does not abort — it retries and
returns the socket from the second, successful attempt. -/
theorem connect_retry_cex :
    connectLoop
      (fun k => if k = 0 then ConnectOutcome.otherError
        else ConnectOutcome.success) 2 0 = some 1 := rfl

/-- C10 (amended): the connect loop's `except Exception` treats every
failure alike: after any non-success outcome — transient
connection-refused or not — it retries the next attempt (there is no
fatal `SetupFailure` path), and it can only terminate by an attempt
that succeeds. -/
theorem connect_retries_all_errors (outcome : Nat → ConnectOutcome)
    (fuel k : Nat) (hfail : outcome k ≠ ConnectOutcome.success) :
    connectLoop outcome (fuel + 1) k = connectLoop outcome fuel (k + 1) ∧
    (∀ m, connectLoop outcome (fuel + 1) k = some m →
      outcome m = ConnectOutcome.success ∧ k ≤ m) := by
  constructor
  · cases houtcome : outcome k with
    | success => exact absurd houtcome hfail
    | refused => simp only [connectLoop, houtcome]
    | otherError => simp only [connectLoop, houtcome]
  · exact fun m h => connectLoop_some outcome (fuel + 1) k m h

/-- Witness for the amended C10: a non-transient first failure followed
by a success. -/
theorem connect_retries_all_errors_witness :
    connectLoop
        (fun k => if k = 0 then ConnectOutcome.otherError
          else ConnectOutcome.success) (1 + 1) 0
      = connectLoop
          (fun k => if k = 0 then ConnectOutcome.otherError
            else ConnectOutcome.success) 1 (0 + 1) ∧
    (∀ m, connectLoop
        (fun k => if k = 0 then ConnectOutcome.otherError
          else ConnectOutcome.success) (1 + 1) 0 = some m →
      (fun k => if k = 0 then ConnectOutcome.otherError
        else ConnectOutcome.success) m = ConnectOutcome.success ∧ 0 ≤ m) :=
  connect_retries_all_errors
    (fun k => if k = 0 then ConnectOutcome.otherError
      else ConnectOutcome.success) 1 0 (by decide)

end ForestFire
